import Mathlib

/-!
Verification development for the `hkg` home-directory package manager
(`hkg.py`).  The package database (`packages.hdb`), the source
configuration and package metadata are all parsed with `configparser`
into ordered section/option mappings; we model a parsed configuration as
an ordered association list of sections, each section an ordered
association list of option/value pairs (Python dicts preserve insertion
order; `d[k] = v` overwrites in place or appends; `del d[k]` removes the
binding).  Fallible Python code (operations that can raise `KeyError`,
`IndexError`, `FileNotFoundError`, ...) is embedded in `Except PyErr`.
Functions that rewrite files on disk additionally return the number of
open-for-write events, so that frame properties ("no write happened")
are expressible.
-/

set_option autoImplicit false

namespace Hkg

/-- Python exceptions that the embedded fragments can raise. -/
inductive PyErr where
  | keyError (key : String)
  | indexError
  | fileNotFound (path : String)
  | notADirectory (path : String)
  | tarError (member : String)
  | typeError
  deriving DecidableEq, Repr

/-- One `configparser` section: an ordered option ↦ value mapping. -/
abbrev Entries := List (String × String)

/-- A parsed `configparser` file: ordered section name ↦ section mapping. -/
abbrev Store := List (String × Entries)

/-- The keys of a section, in order (`list(d.keys())`). -/
def entKeys (s : Entries) : List String := s.map Prod.fst

/-- `d[k]` on a section: first binding of the key, if any. -/
def entGet : Entries → String → Option String
  | [], _ => none
  | (k, v) :: rest, key => if k = key then some v else entGet rest key

/-- `d[k] = v` on a section: overwrite in place, or append a new binding. -/
def entSet : Entries → String → String → Entries
  | [], key, val => [(key, val)]
  | (k, v) :: rest, key, val =>
    if k = key then (k, val) :: rest else (k, v) :: entSet rest key val

/-- `del d[k]` on a section: drop the first binding of the key. -/
def entDel : Entries → String → Entries
  | [], _ => []
  | (k, v) :: rest, key => if k = key then rest else (k, v) :: entDel rest key

/-- The section names of a parsed file, in order. -/
def secNames (db : Store) : List String := db.map Prod.fst

/-- `parser[sect]`: first section with the given name, if any. -/
def storeGet : Store → String → Option Entries
  | [], _ => none
  | (n, s) :: rest, sect => if n = sect then some s else storeGet rest sect

/-- Replace the (first) section with the given name, or append it. -/
def storeSet : Store → String → Entries → Store
  | [], sect, sec => [(sect, sec)]
  | (n, s) :: rest, sect, sec =>
    if n = sect then (n, sec) :: rest else (n, s) :: storeSet rest sect sec

/-- Result values of `package_database_api` (it returns a `Bool`, a
version string or a list of names depending on the action). -/
inductive ApiResult where
  | bool (b : Bool)
  | str (s : String)
  | strList (l : List String)
  deriving DecidableEq, Repr

/-- Embedding of `package_database_api(db_location, db_action, db_section,
db_pkgname, db_pkgver)`.  The store read from `db_location` comes in as a
parsed `Store`; the result is the returned value, the store contents
after the call, and the number of times the store file was opened for
writing.  Section access `pkg_db[db_section]` raises `KeyError` for a
missing section; the `delete` action first assigns
`pkg_db[db_section][db_pkgname] = db_pkgver` and then deletes that key;
`version` on an absent option raises `KeyError`. -/
def package_database_api (db : Store) (db_action db_section db_pkgname db_pkgver : String) :
    Except PyErr (ApiResult × Store × Nat) :=
  if db_action = "create" then
    match storeGet db db_section with
    | none => .error (.keyError db_section)
    | some sec =>
      .ok (.bool true, storeSet db db_section (entSet sec db_pkgname db_pkgver), 1)
  else if db_action = "delete" then
    match storeGet db db_section with
    | none => .error (.keyError db_section)
    | some sec =>
      .ok (.bool true,
           storeSet db db_section (entDel (entSet sec db_pkgname db_pkgver) db_pkgname), 1)
  else if db_action = "update" then
    match storeGet db db_section with
    | none => .error (.keyError db_section)
    | some sec =>
      .ok (.bool true, storeSet db db_section (entSet sec db_pkgname db_pkgver), 1)
  else if db_action = "check" then
    match storeGet db db_section with
    | none => .error (.keyError db_section)
    | some sec => .ok (.bool (decide (db_pkgname ∈ entKeys sec)), db, 0)
  else if db_action = "version" then
    match storeGet db db_section with
    | none => .error (.keyError db_section)
    | some sec =>
      match entGet sec db_pkgname with
      | none => .error (.keyError db_pkgname)
      | some v => .ok (.str v, db, 0)
  else if db_action = "list" then
    match storeGet db db_section with
    | none => .error (.keyError db_section)
    | some sec => .ok (.strList (entKeys sec), db, 0)
  else
    .ok (.bool false, db, 0)

/-- The store produced by `init_package_database`:
`[INSTALLED]` and `[AVAILABLE]`, both empty. -/
def emptyHdb : Store := [("INSTALLED", []), ("AVAILABLE", [])]

/-- The values of a section, in order (`list(d.values())`). -/
def entVals (s : Entries) : List String := s.map Prod.snd

/-- ASCII lowercase letter (the names the validator handles are ASCII). -/
def isLowerCh (c : Char) : Bool := 97 ≤ c.toNat && c.toNat ≤ 122

/-- ASCII uppercase letter. -/
def isUpperCh (c : Char) : Bool := 65 ≤ c.toNat && c.toNat ≤ 90

/-- ASCII letter. -/
def isAlphaCh (c : Char) : Bool := isUpperCh c || isLowerCh c

/-- ASCII decimal digit. -/
def isDigitCh (c : Char) : Bool := 48 ≤ c.toNat && c.toNat ≤ 57

/-- Python `str.islower()`: at least one cased character, and no cased
character is uppercase. -/
def pyIsLower (s : String) : Bool :=
  s.toList.any isAlphaCh && s.toList.all (fun c => !isUpperCh c)

/-- Python `str.isalpha()`: non-empty and all characters alphabetic. -/
def pyIsAlpha (s : String) : Bool :=
  (!s.toList.isEmpty) && s.toList.all isAlphaCh

/-- Python `str.isdigit()` on a character list: non-empty, all digits. -/
def pyIsDigitL (l : List Char) : Bool := (!l.isEmpty) && l.all isDigitCh

/-- Python `s.replace('.', '', 1)`: delete the first `'.'`, if any. -/
def removeFirstDot : List Char → List Char
  | [] => []
  | c :: rest => if c = '.' then rest else c :: removeFirstDot rest

/-- The version test of `validate_package_database`:
`package_ver.replace('.', '', 1).isdigit()`. -/
def pyVersionOk (s : String) : Bool := pyIsDigitL (removeFirstDot s.toList)

/-- Embedding of `validate_package_database`: exactly two sections named
`INSTALLED` and `AVAILABLE`, every key in both sections passes
`islower()` and `isalpha()`, and every value passes
`replace('.', '', 1).isdigit()`. -/
def validate_package_database (db : Store) : Bool :=
  decide ((secNames db).length = 2) &&
  decide ("INSTALLED" ∈ secNames db) &&
  decide ("AVAILABLE" ∈ secNames db) &&
  (entKeys ((storeGet db "INSTALLED").getD [])).all pyIsLower &&
  (entKeys ((storeGet db "AVAILABLE").getD [])).all pyIsLower &&
  (entKeys ((storeGet db "INSTALLED").getD [])).all pyIsAlpha &&
  (entKeys ((storeGet db "AVAILABLE").getD [])).all pyIsAlpha &&
  (entVals ((storeGet db "INSTALLED").getD [])).all pyVersionOk &&
  (entVals ((storeGet db "AVAILABLE").getD [])).all pyVersionOk

/-- Split a character list at every `'.'` (the spec's version pattern
`\d+` or `\d+.\d+` read with a literal decimal point). -/
def splitDot : List Char → List (List Char)
  | [] => [[]]
  | c :: rest =>
    if c = '.' then [] :: splitDot rest
    else
      match splitDot rest with
      | [] => [[c]]
      | p :: ps => (c :: p) :: ps

/-- The spec's stated version pattern: a string matching `\d+` or
`\d+.\d+` — digits, or digits, one decimal point, digits. -/
def specVersionPat (s : String) : Bool :=
  match splitDot s.toList with
  | [a] => pyIsDigitL a
  | [a, b] => pyIsDigitL a && pyIsDigitL b
  | _ => false

/-- The version shapes the validator actually accepts: at most one
decimal point, every other character a digit, and at least one digit
(so `.5` and `5.` are accepted in addition to `\d+` and `\d+.\d+`). -/
def amendedVersionOk (s : String) : Prop :=
  s.toList.count '.' ≤ 1 ∧ (∀ c ∈ s.toList, c = '.' ∨ isDigitCh c = true) ∧
    (∃ c ∈ s.toList, isDigitCh c = true)

/-- A store exhibiting the difference: `.5` passes the validator but
matches neither `\d+` nor `\d+.\d+`. -/
def dbDotFive : Store := [("INSTALLED", [("alpha", ".5")]), ("AVAILABLE", [])]

/-- Embedding of `add_repo` (configuration already parsed): set
`config_data['SOURCES'][repo_url] = 'enabled'` and rewrite the file —
there is no duplicate check, so the call reports success regardless. -/
def add_repo (config : Store) (repo_url : String) : Except PyErr (Bool × Store × Nat) :=
  match storeGet config "SOURCES" with
  | none => .error (.keyError "SOURCES")
  | some sources =>
    .ok (true, storeSet config "SOURCES" (entSet sources repo_url "enabled"), 1)

/-- A configuration whose `SOURCES` section already holds a URL. -/
def cfgWithRepo : Store :=
  [("SOURCES", [("http://repo.example", "enabled")]), ("OPTIONS", [])]

/-- A filesystem node: a plain file, or a directory with an ordered list
of named children. -/
inductive FsNode where
  | file
  | dir (children : List (String × FsNode))

/-- `os.listdir`: the names of a directory's entries. -/
def listdirNames (children : List (String × FsNode)) : List String :=
  children.map Prod.fst

/-- Look a child up by name. -/
def childGet : List (String × FsNode) → String → Option FsNode
  | [], _ => none
  | (n, node) :: rest, name => if n = name then some node else childGet rest name

/-- Embedding of `validate_source_directory`.  `base` is
`os.path.basename(os.path.normpath(source_location))` and `children` the
listing of the top directory.  The first check wants exactly two top
entries, `metadata` among them and `base` among them; the second check
lists `source_location + '/' + base` — which raises `FileNotFoundError`
(or `NotADirectoryError`) when that entry is missing (or a file) — and
wants exactly three inner entries with `etc` and `lib` among them. -/
def validate_source_directory (base : String) (children : List (String × FsNode)) :
    Except PyErr Bool :=
  match childGet children base with
  | none => .error (.fileNotFound base)
  | some .file => .error (.notADirectory base)
  | some (.dir inner) =>
    .ok ((decide ((listdirNames children).length = 2) &&
          decide ("metadata" ∈ listdirNames children) &&
          decide (base ∈ listdirNames children)) &&
         (decide ((listdirNames inner).length = 3) &&
          decide ("etc" ∈ listdirNames inner) &&
          decide ("lib" ∈ listdirNames inner)))

/-- The source-tree shape accepted by `validate_source_directory`: two
top entries (`metadata` and the basename), the basename entry a
directory with exactly three children including `etc` and `lib`. -/
def canonicalSourceTree (base : String) (children : List (String × FsNode)) : Prop :=
  ∃ inner, childGet children base = some (.dir inner) ∧
    (listdirNames children).length = 2 ∧
    "metadata" ∈ listdirNames children ∧ base ∈ listdirNames children ∧
    (listdirNames inner).length = 3 ∧
    "etc" ∈ listdirNames inner ∧ "lib" ∈ listdirNames inner

/-- A tree whose only deviation is the inner directory's name:
`wrongname` instead of the root basename `pkg`. -/
def wrongNameTree : List (String × FsNode) :=
  [("metadata", .file),
   ("wrongname", .dir [("etc", .dir []), ("lib", .dir []), ("run.bin", .file)])]

/-- The canonical tree for a package `pkg`: `metadata` plus a `pkg`
directory holding `etc`, `lib` and one executable. -/
def goodTree : List (String × FsNode) :=
  [("metadata", .file),
   ("pkg", .dir [("etc", .dir []), ("lib", .dir []), ("run.bin", .file)])]

/-- A configured source as the install loop sees it: its URL, whether
fetching `packages.hdb` from it succeeds, the parsed remote store, and
the archive bytes it serves for the requested package. -/
structure Source where
  url : String
  reachable : Bool
  db : Store
  archive : String

/-- Embedding of the source-iteration loop of `install_package` (the
`for`/`else` over `sources`): a source whose fetch signals a connection
failure is skipped by `continue`; otherwise the fetched store's
`AVAILABLE` section is consulted (`KeyError` if the remote store lacks
it) and on the first source listing `pkg_name` the archive is downloaded
and written to the cache as `<pkg_name>.hkg`, leaving the loop; if no
source matches, the `else` branch reports no result. -/
def locate_and_download (pkg_name : String) :
    List Source → Except PyErr (Option (Source × String × String))
  | [] => .ok none
  | s :: rest =>
    if s.reachable = false then locate_and_download pkg_name rest
    else
      match storeGet s.db "AVAILABLE" with
      | none => .error (.keyError "AVAILABLE")
      | some avail =>
        if pkg_name ∈ entKeys avail then
          .ok (some (s, pkg_name ++ ".hkg", s.archive))
        else locate_and_download pkg_name rest

/-- An unreachable repository (its `packages.hdb` fetch fails). -/
def srcDown : Source :=
  { url := "http://a.example", reachable := false, db := [], archive := "AAA" }

/-- A reachable repository that does not carry the package `spam`. -/
def srcNoPkg : Source :=
  { url := "http://b.example", reachable := true, db := emptyHdb, archive := "BBB" }

/-- A reachable repository that carries `spam`. -/
def srcHasPkg : Source :=
  { url := "http://c.example", reachable := true,
    db := [("INSTALLED", []), ("AVAILABLE", [("spam", "1.0")])],
    archive := "SPAMBYTES" }

/-- A flat directory for the `etc/` handling of `update_package`:
file name ↦ file contents. -/
abbrev EtcDir := List (String × String)

/-- Embedding of the configuration-preservation block of
`update_package` for one updated package (lines from listing the
package's `etc/` to removing the staging area).  `etc0` is the `etc/`
listing before the update, `freshEtc` the `etc/` contents the fresh
install produces.  With preservation on and a non-empty listing, every
file `f` is renamed to `<f>.hkg_old` in the staging area; after
remove+install, every file now in the staging area is renamed into the
new `etc/` under its *staged* name (the loop reuses the listed name
unchanged); finally the staging area is removed.  Returns the staging
contents during remove+install, the final `etc/` contents, and the
staging directory left afterwards (`none` = absent). -/
def update_etc_preserve (etc0 freshEtc : EtcDir) (no_preserve_flag : Bool) :
    EtcDir × EtcDir × Option EtcDir :=
  if 0 < etc0.length ∧ no_preserve_flag = false then
    (etc0.map (fun fc => (fc.1 ++ ".hkg_old", fc.2)),
     (etc0.map (fun fc => (fc.1 ++ ".hkg_old", fc.2))).foldl
       (fun acc gc => entSet acc gc.1 gc.2) freshEtc,
     none)
  else
    ([], freshEtc, none)

/-- Python string `<`: lexicographic comparison on code points. -/
def pyListLt : List Char → List Char → Bool
  | [], [] => false
  | [], _ :: _ => true
  | _ :: _, [] => false
  | a :: as2, b :: bs =>
    if a.toNat < b.toNat then true
    else if b.toNat < a.toNat then false
    else pyListLt as2 bs

/-- Python `a > b` on strings (used for all version comparisons). -/
def pyStrGt (a b : String) : Bool := pyListLt b.toList a.toList

/-- Python `x[-4:]`: the last four characters (the whole string when
shorter). -/
def pyTakeLast4 (x : String) : String := ⟨x.toList.drop (x.toList.length - 4)⟩

/-- Python `x[:-4]`: the string without its last four characters. -/
def pyDropLast4 (x : String) : String := ⟨x.toList.take (x.toList.length - 4)⟩

/-- `list.remove(x)`: drop the first element equal to `x`. -/
def removeFirstStr : List String → String → List String
  | [], _ => []
  | y :: rest, x => if y = x then rest else y :: removeFirstStr rest x

/-- The in-place filtering loop of `update_repo`:
`for i in range(0, n)` with `n` the length before any removal; each
iteration indexes the current (possibly shrunk) list — raising
`IndexError` past its end — and removes the entry when its last four
characters are not `.hkg`.  The first argument is the number of
iterations left. -/
def filterLoop : Nat → List String → Nat → Except PyErr (List String)
  | 0, l, _ => .ok l
  | fuel + 1, l, i =>
    match l.get? i with
    | none => .error .indexError
    | some x =>
      if pyTakeLast4 x = ".hkg" then filterLoop fuel l (i + 1)
      else filterLoop fuel (removeFirstStr l x) (i + 1)

/-- A repository directory entry other than `packages.hdb`: its file
name, and the version its embedded metadata records when the archive is
readable (`none` models an archive whose metadata extraction raises). -/
structure RepoEntry where
  name : String
  meta : Option String

/-- A repository directory: the parsed `packages.hdb` when that file
exists, and the remaining directory entries in listing order (the code
removes `packages.hdb` itself from the listing first; it is present
whenever the store is). -/
structure Repo where
  store : Option Store
  entries : List RepoEntry

/-- Open the archive named `n` in the repository listing:
`none` = no such file, `some none` = unreadable metadata,
`some (some v)` = metadata version `v`. -/
def entryVer : List RepoEntry → String → Option (Option String)
  | [], _ => none
  | e :: rest, n => if e.name = n then some e.meta else entryVer rest n

/-- The metadata pass of `update_repo`: for each filtering survivor `i`,
read the archive's metadata version and record
`repo_pkg_version_dict[i[:-4]] = version` (raising on an unreadable
archive — no per-file skip). -/
def buildDict (entries : List RepoEntry) : List String → Entries → Except PyErr Entries
  | [], acc => .ok acc
  | i :: rest, acc =>
    match entryVer entries i with
    | none => .error (.fileNotFound i)
    | some none => .error (.tarError i)
    | some (some v) => buildDict entries rest (entSet acc (pyDropLast4 i) v)

/-- One dict entry of the reconcile pass of `update_repo`: `check` the
`AVAILABLE` section; if absent, `create`; if present and the on-disk
version is string-greater than the stored `version`, `update`.  All
through `package_database_api`; the store state and write count are
threaded. -/
def reconcileStep (db : Store) (name ver : String) : Except PyErr (Store × Nat) :=
  match package_database_api db "check" "AVAILABLE" name "-1" with
  | .error e => .error e
  | .ok (.bool false, db1, w1) =>
    match package_database_api db1 "create" "AVAILABLE" name ver with
    | .error e => .error e
    | .ok (_, db2, w2) => .ok (db2, w1 + w2)
  | .ok (.bool true, db1, w1) =>
    match package_database_api db1 "version" "AVAILABLE" name "-1" with
    | .error e => .error e
    | .ok (.str v, db2, w2) =>
      if pyStrGt ver v then
        match package_database_api db2 "update" "AVAILABLE" name ver with
        | .error e => .error e
        | .ok (_, db3, w3) => .ok (db3, w1 + w2 + w3)
      else .ok (db2, w1 + w2)
    | .ok (_, _, _) => .error .typeError
  | .ok (_, _, _) => .error .typeError

/-- The reconcile pass over the whole dict, in insertion order. -/
def reconcile : Store → Entries → Except PyErr (Store × Nat)
  | db, [] => .ok (db, 0)
  | db, (n, v) :: rest =>
    match reconcileStep db n v with
    | .error e => .error e
    | .ok (db1, w1) =>
      match reconcile db1 rest with
      | .error e => .error e
      | .ok (db2, w2) => .ok (db2, w1 + w2)

/-- The stale-removal pass of `update_repo`: over the `AVAILABLE` keys
read after the reconcile pass, `delete` every name not among the dict
keys. -/
def deletePass : Store → List String → List String → Except PyErr (Store × Nat)
  | db, [], _ => .ok (db, 0)
  | db, i :: rest, dk =>
    if i ∈ dk then deletePass db rest dk
    else
      match package_database_api db "delete" "AVAILABLE" i "-1" with
      | .error e => .error e
      | .ok (_, db1, w1) =>
        match deletePass db1 rest dk with
        | .error e => .error e
        | .ok (db2, w2) => .ok (db2, w1 + w2)

/-- Embedding of `update_repo`: require `packages.hdb` (else report
`False`); filter the listing with the in-place loop; build the
name↦version dict from archive metadata; reconcile it into `AVAILABLE`;
then re-read the store and delete stale `AVAILABLE` entries.  Returns
the success flag, the repository afterwards, and the number of store
writes. -/
def update_repo (repo : Repo) : Except PyErr (Bool × Repo × Nat) :=
  match repo.store with
  | none => .ok (false, repo, 0)
  | some db0 =>
    match filterLoop (repo.entries.map RepoEntry.name).length
        (repo.entries.map RepoEntry.name) 0 with
    | .error e => .error e
    | .ok filtered =>
      match buildDict repo.entries filtered [] with
      | .error e => .error e
      | .ok dict =>
        match reconcile db0 dict with
        | .error e => .error e
        | .ok (db1, w1) =>
          match storeGet db1 "AVAILABLE" with
          | none => .error (.keyError "AVAILABLE")
          | some avail1 =>
            match deletePass db1 (entKeys avail1) (entKeys dict) with
            | .error e => .error e
            | .ok (db2, w2) =>
              .ok (true, { store := some db2, entries := repo.entries }, w1 + w2)

/-- A repository holding one well-formed archive `a.hkg` at version
`1.0` next to a fresh store. -/
def repoDemo : Repo :=
  { store := some emptyHdb, entries := [⟨"a.hkg", some "1.0"⟩] }

/-- `repoDemo` after one `update_repo` pass: `a = 1.0` in `AVAILABLE`. -/
def repoDemo1 : Repo :=
  { store := some [("INSTALLED", []), ("AVAILABLE", [("a", "1.0")])],
    entries := [⟨"a.hkg", some "1.0"⟩] }

theorem entGet_eq_none_of_not_mem {s : Entries} {key : String}
    (h : key ∉ entKeys s) : entGet s key = none := by
  induction s with
  | nil => rfl
  | cons kv rest ih =>
    obtain ⟨k, v⟩ := kv
    simp only [entKeys, List.map_cons, List.mem_cons] at h
    push_neg at h
    have hk : ¬ (k = key) := fun hh => h.1 hh.symm
    simp only [entGet, if_neg hk]
    exact ih h.2

theorem entDel_entSet_of_not_mem {s : Entries} {key val : String}
    (h : key ∉ entKeys s) : entDel (entSet s key val) key = s := by
  induction s with
  | nil => simp [entSet, entDel]
  | cons kv rest ih =>
    obtain ⟨k, v⟩ := kv
    simp only [entKeys, List.map_cons, List.mem_cons] at h
    push_neg at h
    have hk : ¬ (k = key) := fun hh => h.1 hh.symm
    simp only [entSet, if_neg hk, entDel, ih h.2]

theorem storeSet_get_self {db : Store} {sect : String} {sec : Entries}
    (h : storeGet db sect = some sec) : storeSet db sect sec = db := by
  induction db with
  | nil => simp [storeGet] at h
  | cons ns rest ih =>
    obtain ⟨n, s⟩ := ns
    by_cases hn : n = sect
    · simp only [storeGet, if_pos hn] at h
      simp only [storeSet, if_pos hn, Option.some.injEq] at h ⊢
      rw [h]
    · simp only [storeGet, if_neg hn] at h
      simp only [storeSet, if_neg hn, ih h]

theorem api_delete_eq (db : Store) (sect name ver : String) :
    package_database_api db "delete" sect name ver =
      (match storeGet db sect with
       | none => .error (.keyError sect)
       | some sec =>
         .ok (.bool true, storeSet db sect (entDel (entSet sec name ver) name), 1)) := rfl

theorem api_check_eq (db : Store) (sect name ver : String) :
    package_database_api db "check" sect name ver =
      (match storeGet db sect with
       | none => .error (.keyError sect)
       | some sec => .ok (.bool (decide (name ∈ entKeys sec)), db, 0)) := rfl

theorem api_version_eq (db : Store) (sect name ver : String) :
    package_database_api db "version" sect name ver =
      (match storeGet db sect with
       | none => .error (.keyError sect)
       | some sec =>
         match entGet sec name with
         | none => .error (.keyError name)
         | some v => .ok (.str v, db, 0)) := rfl

theorem api_list_eq (db : Store) (sect name ver : String) :
    package_database_api db "list" sect name ver =
      (match storeGet db sect with
       | none => .error (.keyError sect)
       | some sec => .ok (.strList (entKeys sec), db, 0)) := rfl

theorem api_create_eq (db : Store) (sect name ver : String) :
    package_database_api db "create" sect name ver =
      (match storeGet db sect with
       | none => .error (.keyError sect)
       | some sec => .ok (.bool true, storeSet db sect (entSet sec name ver), 1)) := rfl

theorem api_update_eq (db : Store) (sect name ver : String) :
    package_database_api db "update" sect name ver =
      (match storeGet db sect with
       | none => .error (.keyError sect)
       | some sec => .ok (.bool true, storeSet db sect (entSet sec name ver), 1)) := rfl

/-- Claim C1: the core operations are claimed to return a definite
outcome on every input; but `package_database_api` with the `version`
action on a name absent from the section terminates with an uncaught
`KeyError` instead of returning a result (the spec's own error taxonomy
expects a NotFound outcome here). -/
theorem c1_version_absent_raises_keyerror :
    package_database_api emptyHdb "version" "INSTALLED" "foo" "" =
      .error (.keyError "foo") := by
  rfl

/-- Claim C7: deleting a name absent from an existing section reports
success (`True`), leaves the whole store's contents unchanged, and (still)
rewrites the file once. -/
theorem c7_delete_absent_is_noop (db : Store) (sec : Entries) (sect name ver : String)
    (hsec : storeGet db sect = some sec) (habs : name ∉ entKeys sec) :
    package_database_api db "delete" sect name ver = .ok (.bool true, db, 1) := by
  simp only [api_delete_eq, hsec]
  rw [entDel_entSet_of_not_mem habs, storeSet_get_self hsec]

theorem c7_delete_absent_is_noop_witness :
    storeGet emptyHdb "AVAILABLE" = some [] ∧ "foo" ∉ entKeys ([] : Entries) ∧
      package_database_api emptyHdb "delete" "AVAILABLE" "foo" "0" =
        .ok (.bool true, emptyHdb, 1) :=
  ⟨rfl, by simp [entKeys],
   c7_delete_absent_is_noop emptyHdb [] "AVAILABLE" "foo" "0" rfl (by simp [entKeys])⟩

/-- Claim C10: the read-only actions `check`, `version` and `list` never
open the store file for writing and leave the store's contents unchanged:
whenever they return a value at all, the resulting store is the input
store and the write count is zero. -/
theorem c10_readonly_actions_preserve_store (db : Store) (act sect name ver : String)
    (hact : act = "check" ∨ act = "version" ∨ act = "list")
    (r : ApiResult) (db' : Store) (w : Nat)
    (hok : package_database_api db act sect name ver = .ok (r, db', w)) :
    db' = db ∧ w = 0 := by
  rcases hact with h | h | h <;> subst h
  · rw [api_check_eq] at hok
    rcases hdb : storeGet db sect with _ | sec <;> rw [hdb] at hok
    · exact absurd hok (by simp)
    · simp only [Except.ok.injEq, Prod.mk.injEq] at hok
      exact ⟨hok.2.1.symm, hok.2.2.symm⟩
  · rw [api_version_eq] at hok
    split at hok
    · exact absurd hok (by simp)
    · split at hok
      · exact absurd hok (by simp)
      · simp only [Except.ok.injEq, Prod.mk.injEq] at hok
        exact ⟨hok.2.1.symm, hok.2.2.symm⟩
  · rw [api_list_eq] at hok
    rcases hdb : storeGet db sect with _ | sec <;> rw [hdb] at hok
    · exact absurd hok (by simp)
    · simp only [Except.ok.injEq, Prod.mk.injEq] at hok
      exact ⟨hok.2.1.symm, hok.2.2.symm⟩

theorem c10_readonly_actions_preserve_store_witness :
    package_database_api emptyHdb "check" "INSTALLED" "foo" "" =
        .ok (.bool false, emptyHdb, 0) ∧
      emptyHdb = emptyHdb ∧ (0 : Nat) = 0 :=
  ⟨rfl,
   c10_readonly_actions_preserve_store emptyHdb "check" "INSTALLED" "foo" ""
     (Or.inl rfl) (.bool false) emptyHdb 0 rfl⟩

theorem entSet_get_self {s : Entries} {key val : String}
    (h : entGet s key = some val) : entSet s key val = s := by
  induction s with
  | nil => simp [entGet] at h
  | cons kv rest ih =>
    obtain ⟨k, v⟩ := kv
    by_cases hk : k = key
    · simp only [entGet, if_pos hk, Option.some.injEq] at h
      simp only [entSet, if_pos hk, h]
    · simp only [entGet, if_neg hk] at h
      simp only [entSet, if_neg hk, ih h]

/-- Claim C5 counterexample: adding a repository URL already present in
`SOURCES` returns `True` (success) with the configuration unchanged — it
is not surfaced as a failure. -/
theorem c5_duplicate_add_reports_success :
    add_repo cfgWithRepo "http://repo.example" = .ok (true, cfgWithRepo, 1) := by
  rfl

/-- Claim C5 (amended): `add_repo` performs no duplicate check; adding a
URL already present (and enabled) in `SOURCES` reports success and
rewrites the configuration with unchanged contents. -/
theorem c5_duplicate_add_succeeds (config : Store) (sources : Entries) (url : String)
    (hs : storeGet config "SOURCES" = some sources)
    (hdup : entGet sources url = some "enabled") :
    add_repo config url = .ok (true, config, 1) := by
  simp only [add_repo, hs]
  rw [entSet_get_self hdup, storeSet_get_self hs]

theorem c5_duplicate_add_succeeds_witness :
    storeGet cfgWithRepo "SOURCES" = some [("http://repo.example", "enabled")] ∧
      add_repo cfgWithRepo "http://repo.example" =
        .ok (true, cfgWithRepo, 1) :=
  ⟨rfl,
   c5_duplicate_add_succeeds cfgWithRepo [("http://repo.example", "enabled")]
     "http://repo.example" rfl rfl⟩

theorem dotChar_not_digit : isDigitCh '.' = false := by decide

theorem lower_not_upper {c : Char} (h : isLowerCh c = true) : isUpperCh c = false := by
  simp only [isLowerCh, Bool.and_eq_true, decide_eq_true_eq] at h
  simp only [isUpperCh, Bool.and_eq_false_iff, decide_eq_false_iff_not]
  right
  omega

theorem lower_alpha {c : Char} (h : isLowerCh c = true) : isAlphaCh c = true := by
  simp [isAlphaCh, h]

theorem alpha_not_upper_lower {c : Char} (ha : isAlphaCh c = true)
    (hu : isUpperCh c = false) : isLowerCh c = true := by
  simp only [isAlphaCh, Bool.or_eq_true] at ha
  rcases ha with h | h
  · rw [h] at hu; exact absurd hu (by simp)
  · exact h

/-- The key test of the validator, characterized: `islower() and
isalpha()` holds exactly for non-empty all-lowercase-letter strings. -/
theorem key_test_iff (s : String) :
    (pyIsLower s = true ∧ pyIsAlpha s = true) ↔
      (s.toList ≠ [] ∧ ∀ c ∈ s.toList, isLowerCh c = true) := by
  constructor
  · rintro ⟨hl, ha⟩
    simp only [pyIsLower, Bool.and_eq_true, List.any_eq_true, List.all_eq_true] at hl
    simp only [pyIsAlpha, Bool.and_eq_true, List.all_eq_true] at ha
    have hne : s.toList ≠ [] := by
      have h1 := ha.1
      simpa using h1
    refine ⟨hne, fun c hc => ?_⟩
    have hu : isUpperCh c = false := by
      have h2 := hl.2 c hc
      simpa using h2
    exact alpha_not_upper_lower (ha.2 c hc) hu
  · rintro ⟨hne, hall⟩
    constructor
    · simp only [pyIsLower, Bool.and_eq_true, List.any_eq_true, List.all_eq_true]
      constructor
      · rcases List.exists_mem_of_ne_nil _ hne with ⟨c, hc⟩
        exact ⟨c, hc, lower_alpha (hall c hc)⟩
      · intro c hc
        simp [lower_not_upper (hall c hc)]
    · simp only [pyIsAlpha, Bool.and_eq_true, List.all_eq_true]
      refine ⟨by simpa using hne, fun c hc => lower_alpha (hall c hc)⟩

theorem all_digit_iff (l : List Char) :
    l.all isDigitCh = true ↔
      (l.count '.' = 0 ∧ ∀ c ∈ l, c = '.' ∨ isDigitCh c = true) := by
  induction l with
  | nil => simp
  | cons c rest ih =>
    by_cases hc : c = '.'
    · subst hc
      rw [List.count_cons_self]
      simp [dotChar_not_digit]
    · have hne : ('.' : Char) ≠ c := fun hh => hc hh.symm
      rw [List.count_cons_of_ne hne]
      simp only [List.all_cons, Bool.and_eq_true, ih, List.mem_cons]
      constructor
      · rintro ⟨hd, hcnt, hall⟩
        refine ⟨hcnt, ?_⟩
        rintro x (rfl | hx)
        · exact Or.inr hd
        · exact hall x hx
      · rintro ⟨hcnt, hall⟩
        exact ⟨(hall c (Or.inl rfl)).resolve_left hc, hcnt,
          fun x hx => hall x (Or.inr hx)⟩

theorem removeFirstDot_all_digit_iff (l : List Char) :
    (removeFirstDot l).all isDigitCh = true ↔
      (l.count '.' ≤ 1 ∧ ∀ c ∈ l, c = '.' ∨ isDigitCh c = true) := by
  induction l with
  | nil => simp [removeFirstDot]
  | cons c rest ih =>
    by_cases hc : c = '.'
    · subst hc
      rw [show removeFirstDot ('.' :: rest) = rest from rfl, all_digit_iff,
        List.count_cons_self]
      simp only [List.mem_cons]
      constructor
      · rintro ⟨hcnt, hall⟩
        refine ⟨by omega, ?_⟩
        rintro x (rfl | hx)
        · exact Or.inl rfl
        · exact hall x hx
      · rintro ⟨hcnt, hall⟩
        exact ⟨by omega, fun x hx => hall x (Or.inr hx)⟩
    · have hne : ('.' : Char) ≠ c := fun hh => hc hh.symm
      simp only [removeFirstDot, if_neg hc, List.all_cons, Bool.and_eq_true, ih,
        List.count_cons_of_ne hne, List.mem_cons]
      constructor
      · rintro ⟨hd, hcnt, hall⟩
        refine ⟨hcnt, ?_⟩
        rintro x (rfl | hx)
        · exact Or.inr hd
        · exact hall x hx
      · rintro ⟨hcnt, hall⟩
        exact ⟨(hall c (Or.inl rfl)).resolve_left hc, hcnt,
          fun x hx => hall x (Or.inr hx)⟩

theorem removeFirstDot_ne_nil_iff (l : List Char)
    (h1 : l.count '.' ≤ 1) (h2 : ∀ c ∈ l, c = '.' ∨ isDigitCh c = true) :
    removeFirstDot l ≠ [] ↔ ∃ c ∈ l, isDigitCh c = true := by
  induction l with
  | nil => simp [removeFirstDot]
  | cons c rest ih =>
    by_cases hc : c = '.'
    · subst hc
      rw [show removeFirstDot ('.' :: rest) = rest from rfl]
      have hcnt : rest.count '.' = 0 := by
        rw [List.count_cons_self] at h1
        omega
      have hall : rest.all isDigitCh = true :=
        (all_digit_iff rest).2 ⟨hcnt, fun x hx => h2 x (List.mem_cons_of_mem _ hx)⟩
      simp only [List.all_eq_true] at hall
      constructor
      · intro hne
        rcases List.exists_mem_of_ne_nil _ hne with ⟨x, hx⟩
        exact ⟨x, List.mem_cons_of_mem _ hx, hall x hx⟩
      · rintro ⟨x, hx, hd⟩
        rcases List.mem_cons.1 hx with rfl | hx
        · rw [dotChar_not_digit] at hd
          exact absurd hd (by simp)
        · exact List.ne_nil_of_mem hx
    · simp only [removeFirstDot, if_neg hc]
      have hd : isDigitCh c = true := (h2 c (List.mem_cons_self _ _)).resolve_left hc
      constructor
      · intro _
        exact ⟨c, List.mem_cons_self _ _, hd⟩
      · intro _
        simp

theorem pyVersionOk_iff (s : String) :
    pyVersionOk s = true ↔ amendedVersionOk s := by
  unfold pyVersionOk pyIsDigitL amendedVersionOk
  rw [Bool.and_eq_true, removeFirstDot_all_digit_iff]
  constructor
  · rintro ⟨hne, hcnt, hall⟩
    have hne2 : removeFirstDot s.toList ≠ [] := by simpa using hne
    exact ⟨hcnt, hall, (removeFirstDot_ne_nil_iff _ hcnt hall).1 hne2⟩
  · rintro ⟨hcnt, hall, hex⟩
    refine ⟨?_, hcnt, hall⟩
    have hne2 := (removeFirstDot_ne_nil_iff _ hcnt hall).2 hex
    simpa using hne2

/-- Claim C8 counterexample: the store `[INSTALLED] alpha = .5`,
`[AVAILABLE]` (empty) is accepted by `validate_package_database`, yet
the value `.5` matches neither `\d+` nor `\d+.\d+`, so the claimed
"if and only if" fails left to right. -/
theorem c8_validator_accepts_dot_five :
    validate_package_database dbDotFive = true ∧
      ".5" ∈ entVals ((storeGet dbDotFive "INSTALLED").getD []) ∧
      specVersionPat ".5" = false := by
  refine ⟨by decide, by decide, by decide⟩

/-- Claim C8 (amended): `validate_package_database` returns `True` iff
the store has exactly two sections named `INSTALLED` and `AVAILABLE`,
every key in both is a non-empty all-lowercase alphabetic string, and
every value has at most one decimal point, digits everywhere else and at
least one digit — i.e. `\d+`, `\d+.\d+`, and also `.\d+` / `\d+.`. -/
theorem c8_validate_package_database_iff (db : Store) :
    validate_package_database db = true ↔
      ((secNames db).length = 2 ∧
       "INSTALLED" ∈ secNames db ∧ "AVAILABLE" ∈ secNames db ∧
       (∀ k ∈ entKeys ((storeGet db "INSTALLED").getD []),
          k.toList ≠ [] ∧ ∀ c ∈ k.toList, isLowerCh c = true) ∧
       (∀ k ∈ entKeys ((storeGet db "AVAILABLE").getD []),
          k.toList ≠ [] ∧ ∀ c ∈ k.toList, isLowerCh c = true) ∧
       (∀ v ∈ entVals ((storeGet db "INSTALLED").getD []), amendedVersionOk v) ∧
       (∀ v ∈ entVals ((storeGet db "AVAILABLE").getD []), amendedVersionOk v)) := by
  unfold validate_package_database
  simp only [Bool.and_eq_true, and_assoc, List.all_eq_true, decide_eq_true_eq]
  constructor
  · rintro ⟨hlen, hin, hav, hk1, hk2, hk3, hk4, hv1, hv2⟩
    refine ⟨hlen, hin, hav,
      fun k hk => (key_test_iff k).1 ⟨hk1 k hk, hk3 k hk⟩,
      fun k hk => (key_test_iff k).1 ⟨hk2 k hk, hk4 k hk⟩,
      fun v hv => (pyVersionOk_iff v).1 (hv1 v hv),
      fun v hv => (pyVersionOk_iff v).1 (hv2 v hv)⟩
  · rintro ⟨hlen, hin, hav, hki, hka, hvi, hva⟩
    exact ⟨hlen, hin, hav,
      fun k hk => (((key_test_iff k).2 (hki k hk))).1,
      fun k hk => (((key_test_iff k).2 (hka k hk))).1,
      fun k hk => (((key_test_iff k).2 (hki k hk))).2,
      fun k hk => (((key_test_iff k).2 (hka k hk))).2,
      fun v hv => (pyVersionOk_iff v).2 (hvi v hv),
      fun v hv => (pyVersionOk_iff v).2 (hva v hv)⟩

/-- Claim C9 counterexample: a tree whose only deviation is a wrongly
named inner directory (`wrongname` instead of the basename `pkg`) does
not make `validate_source_directory` return `False` — listing the
missing `pkg` entry raises `FileNotFoundError` instead. -/
theorem c9_wrong_inner_name_raises :
    validate_source_directory "pkg" wrongNameTree = .error (.fileNotFound "pkg") := by
  rfl

/-- Claim C9 (amended): `validate_source_directory` returns `True`
exactly on the canonical shape (two top entries `metadata` and the
basename, the basename a directory of exactly three entries including
`etc` and `lib`); any deviation that keeps a directory under the
basename present — extra files at either level, missing `etc`/`lib` —
returns `False`; but when no entry named after the root exists (a
wrongly named inner directory), it raises instead of returning `False`. -/
theorem c9_validate_source_directory_characterization (base : String)
    (children : List (String × FsNode)) :
    (validate_source_directory base children = .ok true ↔
      canonicalSourceTree base children) ∧
    (∀ inner, childGet children base = some (.dir inner) →
      ¬ canonicalSourceTree base children →
      validate_source_directory base children = .ok false) ∧
    (childGet children base = none →
      validate_source_directory base children = .error (.fileNotFound base)) := by
  refine ⟨⟨?_, ?_⟩, ?_, ?_⟩
  · intro h
    unfold validate_source_directory at h
    rcases hch : childGet children base with _ | node
    · rw [hch] at h
      exact absurd h (by simp)
    · cases node with
      | file =>
        rw [hch] at h
        exact absurd h (by simp)
      | dir inner =>
        rw [hch] at h
        simp only [Except.ok.injEq, Bool.and_eq_true, and_assoc, decide_eq_true_eq] at h
        exact ⟨inner, hch, h.1, h.2.1, h.2.2.1, h.2.2.2.1, h.2.2.2.2.1, h.2.2.2.2.2⟩
  · rintro ⟨inner, hch, h1, h2, h3, h4, h5, h6⟩
    unfold validate_source_directory
    rw [hch]
    simp [h1, h2, h3, h4, h5, h6]
  · intro inner hch hnc
    unfold validate_source_directory
    rw [hch]
    simp only [Except.ok.injEq]
    by_contra hb
    rw [Bool.not_eq_false] at hb
    simp only [Bool.and_eq_true, and_assoc, decide_eq_true_eq] at hb
    exact hnc ⟨inner, hch, hb.1, hb.2.1, hb.2.2.1, hb.2.2.2.1, hb.2.2.2.2.1, hb.2.2.2.2.2⟩
  · intro hch
    unfold validate_source_directory
    rw [hch]

theorem c9_validate_source_directory_witness :
    validate_source_directory "pkg" goodTree = .ok true ∧
      validate_source_directory "pkg" wrongNameTree = .error (.fileNotFound "pkg") :=
  ⟨(c9_validate_source_directory_characterization "pkg" goodTree).1.2
     ⟨[("etc", .dir []), ("lib", .dir []), ("run.bin", .file)], rfl,
      by decide, by decide, by decide, by decide, by decide, by decide⟩,
   (c9_validate_source_directory_characterization "pkg" wrongNameTree).2.2 rfl⟩

theorem storeGet_isSome_of_mem {db : Store} {x : String} (h : x ∈ secNames db) :
    ∃ sec, storeGet db x = some sec := by
  induction db with
  | nil => simp [secNames] at h
  | cons ns rest ih =>
    obtain ⟨n, s⟩ := ns
    by_cases hn : n = x
    · exact ⟨s, by simp [storeGet, hn]⟩
    · simp only [secNames, List.map_cons, List.mem_cons] at h
      rcases h with rfl | h
      · exact absurd rfl hn
      · rcases ih h with ⟨sec, hsec⟩
        exact ⟨sec, by simp [storeGet, hn, hsec]⟩

/-- Claim C2: the install loop skips unreachable sources silently and
stops at the first source whose `AVAILABLE` section lists the package,
downloading that source's archive into the cache as `<name>.hkg`; the
result names a source exactly when the candidate list splits into
earlier sources that are unreachable or lack the package, followed by
the matching source.  (Hypothesis: reachable sources serve a store with
an `AVAILABLE` section, as `packages.hdb` stores do.) -/
theorem c2_install_first_match_wins (pkg : String) (sources : List Source)
    (hav : ∀ s ∈ sources, s.reachable = true → "AVAILABLE" ∈ secNames s.db)
    (s : Source) (fn content : String) :
    locate_and_download pkg sources = .ok (some (s, fn, content)) ↔
      ∃ pre post, sources = pre ++ s :: post ∧
        (∀ t ∈ pre, t.reachable = false ∨
          pkg ∉ entKeys ((storeGet t.db "AVAILABLE").getD [])) ∧
        s.reachable = true ∧ pkg ∈ entKeys ((storeGet s.db "AVAILABLE").getD []) ∧
        fn = pkg ++ ".hkg" ∧ content = s.archive := by
  induction sources with
  | nil =>
    constructor
    · intro h
      exact absurd h (by simp [locate_and_download])
    · rintro ⟨pre, post, habs, -⟩
      cases pre <;> simp at habs
  | cons s0 rest ih =>
    have hav2 : ∀ t ∈ rest, t.reachable = true → "AVAILABLE" ∈ secNames t.db :=
      fun t ht => hav t (List.mem_cons_of_mem _ ht)
    cases hr : s0.reachable with
    | false =>
      have hstep : locate_and_download pkg (s0 :: rest) = locate_and_download pkg rest := by
        simp [locate_and_download, hr]
      rw [hstep, ih hav2]
      constructor
      · rintro ⟨pre, post, hdec, hpre, hs, hin, hfn, hc⟩
        refine ⟨s0 :: pre, post, by simp [hdec], ?_, hs, hin, hfn, hc⟩
        intro t ht
        rcases List.mem_cons.1 ht with rfl | ht2
        · exact Or.inl hr
        · exact hpre t ht2
      · rintro ⟨pre, post, hdec, hpre, hs, hin, hfn, hc⟩
        cases pre with
        | nil =>
          simp only [List.nil_append, List.cons.injEq] at hdec
          obtain ⟨rfl, rfl⟩ := hdec
          rw [hr] at hs
          exact absurd hs (by simp)
        | cons p pre2 =>
          simp only [List.cons_append, List.cons.injEq] at hdec
          obtain ⟨rfl, hdec⟩ := hdec
          exact ⟨pre2, post, hdec, fun t ht => hpre t (List.mem_cons_of_mem _ ht),
            hs, hin, hfn, hc⟩
    | true =>
      obtain ⟨avail, havail⟩ :=
        storeGet_isSome_of_mem (hav s0 (List.mem_cons_self _ _) hr)
      have hd : (storeGet s0.db "AVAILABLE").getD [] = avail := by rw [havail]; rfl
      by_cases hin0 : pkg ∈ entKeys avail
      · have hstep : locate_and_download pkg (s0 :: rest) =
            .ok (some (s0, pkg ++ ".hkg", s0.archive)) := by
          simp [locate_and_download, hr, havail, hin0]
        rw [hstep]
        constructor
        · intro h
          simp only [Except.ok.injEq, Option.some.injEq, Prod.mk.injEq] at h
          obtain ⟨rfl, hfn, hc⟩ := h
          exact ⟨[], rest, rfl, by simp, hr, by rw [hd]; exact hin0, hfn.symm, hc.symm⟩
        · rintro ⟨pre, post, hdec, hpre, hs, hin, hfn, hc⟩
          cases pre with
          | nil =>
            simp only [List.nil_append, List.cons.injEq] at hdec
            obtain ⟨rfl, rfl⟩ := hdec
            rw [hfn, hc]
          | cons p pre2 =>
            simp only [List.cons_append, List.cons.injEq] at hdec
            obtain ⟨rfl, hdec⟩ := hdec
            rcases hpre s0 (List.mem_cons_self _ _) with hbad | hbad
            · rw [hr] at hbad
              exact absurd hbad (by simp)
            · rw [hd] at hbad
              exact absurd hin0 hbad
      · have hstep : locate_and_download pkg (s0 :: rest) = locate_and_download pkg rest := by
          simp [locate_and_download, hr, havail, hin0]
        rw [hstep, ih hav2]
        constructor
        · rintro ⟨pre, post, hdec, hpre, hs, hin, hfn, hc⟩
          refine ⟨s0 :: pre, post, by simp [hdec], ?_, hs, hin, hfn, hc⟩
          intro t ht
          rcases List.mem_cons.1 ht with rfl | ht2
          · exact Or.inr (by rw [hd]; exact hin0)
          · exact hpre t ht2
        · rintro ⟨pre, post, hdec, hpre, hs, hin, hfn, hc⟩
          cases pre with
          | nil =>
            simp only [List.nil_append, List.cons.injEq] at hdec
            obtain ⟨rfl, rfl⟩ := hdec
            rw [hd] at hin
            exact absurd hin hin0
          | cons p pre2 =>
            simp only [List.cons_append, List.cons.injEq] at hdec
            obtain ⟨rfl, hdec⟩ := hdec
            exact ⟨pre2, post, hdec, fun t ht => hpre t (List.mem_cons_of_mem _ ht),
              hs, hin, hfn, hc⟩

theorem c2_install_first_match_wins_witness :
    locate_and_download "spam" [srcDown, srcNoPkg, srcHasPkg] =
      .ok (some (srcHasPkg, "spam.hkg", "SPAMBYTES")) :=
  (c2_install_first_match_wins "spam" [srcDown, srcNoPkg, srcHasPkg]
      (by decide) srcHasPkg "spam.hkg" "SPAMBYTES").2
    ⟨[srcDown, srcNoPkg], [], rfl, by decide, rfl, by decide, rfl, rfl⟩

theorem strAppendRightCancel {a b t : String} (h : a ++ t = b ++ t) : a = b := by
  cases a with
  | mk la =>
    cases b with
    | mk lb =>
      cases t with
      | mk lt =>
        have h2 : la ++ lt = lb ++ lt := congrArg String.data h
        have h3 : la = lb := (List.append_left_inj lt).1 h2
        rw [h3]

theorem entSet_append_of_not_mem {s : Entries} {k v : String} (h : k ∉ entKeys s) :
    entSet s k v = s ++ [(k, v)] := by
  induction s with
  | nil => simp [entSet]
  | cons kv rest ih =>
    obtain ⟨k0, v0⟩ := kv
    simp only [entKeys, List.map_cons, List.mem_cons] at h
    push_neg at h
    have hk : ¬ (k0 = k) := fun hh => h.1 hh.symm
    simp only [entSet, if_neg hk, List.cons_append, ih h.2]

theorem entKeys_append (s1 s2 : Entries) :
    entKeys (s1 ++ s2) = entKeys s1 ++ entKeys s2 := by
  simp [entKeys]

theorem entGet_append_of_not_mem_left {s1 : Entries} {k : String} (s2 : Entries)
    (h : k ∉ entKeys s1) : entGet (s1 ++ s2) k = entGet s2 k := by
  induction s1 with
  | nil => simp
  | cons kv rest ih =>
    obtain ⟨k0, v0⟩ := kv
    simp only [entKeys, List.map_cons, List.mem_cons] at h
    push_neg at h
    have hk : ¬ (k0 = k) := fun hh => h.1 hh.symm
    simp only [List.cons_append, entGet, if_neg hk]
    exact ih h.2

theorem foldl_entSet_append (l acc : Entries)
    (hd : ∀ kv ∈ l, kv.1 ∉ entKeys acc) (hnd : (entKeys l).Nodup) :
    l.foldl (fun a gc => entSet a gc.1 gc.2) acc = acc ++ l := by
  induction l generalizing acc with
  | nil => simp
  | cons kv rest ih =>
    obtain ⟨k, v⟩ := kv
    simp only [entKeys, List.map_cons, List.nodup_cons] at hnd
    simp only [List.foldl_cons]
    rw [entSet_append_of_not_mem (hd (k, v) (List.mem_cons_self _ _))]
    rw [ih]
    · simp
    · intro kv2 h2
      rw [entKeys_append]
      simp only [List.mem_append]
      push_neg
      refine ⟨hd kv2 (List.mem_cons_of_mem _ h2), ?_⟩
      have hk2 : kv2.1 ∈ entKeys rest := List.mem_map_of_mem Prod.fst h2
      intro he
      simp only [entKeys, List.map_cons, List.map_nil, List.mem_singleton] at he
      exact hnd.1 (he ▸ hk2)
    · exact hnd.2

theorem entGet_map_suffix {etc0 : Entries} {f c : String}
    (hnd : (entKeys etc0).Nodup) (hmem : (f, c) ∈ etc0) :
    entGet (etc0.map (fun fc => (fc.1 ++ ".hkg_old", fc.2))) (f ++ ".hkg_old") =
      some c := by
  induction etc0 with
  | nil => simp at hmem
  | cons kv rest ih =>
    obtain ⟨f0, c0⟩ := kv
    simp only [entKeys, List.map_cons, List.nodup_cons] at hnd
    rcases List.mem_cons.1 hmem with heq | hmem2
    · cases heq
      simp [entGet]
    · have hne : ¬ (f0 ++ ".hkg_old" = f ++ ".hkg_old") := by
        intro he
        have hf : f0 = f := strAppendRightCancel he
        subst hf
        exact hnd.1 (List.mem_map_of_mem Prod.fst hmem2)
      simp only [List.map_cons, entGet, if_neg hne]
      exact ih hnd.2 hmem2

/-- Claim C3 counterexample: one pre-update file `conf` (contents `x`),
fresh install bringing `conf = y`.  The staged copy comes back as
`conf.hkg_old`, not under its original name: `conf` maps to the fresh
`y`, so the claimed suffix-removing restore does not happen. -/
theorem c3_restore_keeps_suffix :
    update_etc_preserve [("conf", "x")] [("conf", "y")] false =
      ([("conf.hkg_old", "x")], [("conf", "y"), ("conf.hkg_old", "x")], none) ∧
      entGet [("conf", "y"), ("conf.hkg_old", "x")] "conf" = some "y" := by
  exact ⟨rfl, rfl⟩

/-- Claim C3 (amended): with preservation on and a non-empty `etc/`,
every pre-update file `f` is staged as `f.hkg_old` (contents intact)
before remove+install; afterwards every staged file is moved back into
the new `etc/` under its *staged* name — the suffix is kept, not removed
— and the staging area is deleted.  (Hypotheses: distinct file names, and
the fresh install supplies no file named like a staged one.) -/
theorem c3_update_preserves_config_with_suffix (etc0 freshEtc : Entries)
    (hne : etc0 ≠ []) (hnd : (entKeys etc0).Nodup)
    (hdisj : ∀ f ∈ entKeys etc0, (f ++ ".hkg_old") ∉ entKeys freshEtc) :
    update_etc_preserve etc0 freshEtc false =
      (etc0.map (fun fc => (fc.1 ++ ".hkg_old", fc.2)),
       freshEtc ++ etc0.map (fun fc => (fc.1 ++ ".hkg_old", fc.2)),
       none) ∧
    ∀ fc ∈ etc0,
      entGet (freshEtc ++ etc0.map (fun fc2 => (fc2.1 ++ ".hkg_old", fc2.2)))
        (fc.1 ++ ".hkg_old") = some fc.2 := by
  have hkeys : entKeys (etc0.map (fun fc => (fc.1 ++ ".hkg_old", fc.2))) =
      (entKeys etc0).map (fun f => f ++ ".hkg_old") := by
    simp [entKeys, List.map_map]
  constructor
  · have hcond : 0 < etc0.length ∧ (false : Bool) = false :=
      ⟨List.length_pos.2 hne, rfl⟩
    rw [update_etc_preserve, if_pos hcond]
    rw [foldl_entSet_append]
    · intro kv hkv
      rcases List.mem_map.1 hkv with ⟨fc, hfc, rfl⟩
      exact hdisj fc.1 (List.mem_map_of_mem Prod.fst hfc)
    · rw [hkeys]
      exact hnd.map (fun a b h => strAppendRightCancel h)
  · intro fc hfc
    rw [entGet_append_of_not_mem_left _
      (hdisj fc.1 (List.mem_map_of_mem Prod.fst hfc))]
    exact entGet_map_suffix hnd (by simpa using hfc)

theorem c3_update_preserves_config_with_suffix_witness :
    ([("conf", "x")] : Entries) ≠ [] ∧
      update_etc_preserve [("conf", "x")] [("app.ini", "z")] false =
        ([("conf.hkg_old", "x")],
         [("app.ini", "z"), ("conf.hkg_old", "x")], none) :=
  ⟨by decide,
   (c3_update_preserves_config_with_suffix [("conf", "x")] [("app.ini", "z")]
     (by decide) (by simp [entKeys]) (by decide)).1⟩

/-- Claim C4: the scan-list cleanup is claimed to discard every
non-`.hkg` entry and keep every `.hkg` entry; in fact the loop removes
elements from the list it is indexing while iterating over the original
index range, so a repository holding `notes.txt` and `a.hkg` next to
`packages.hdb` makes `update_repo` raise an uncaught `IndexError`
(after the removal, index 1 is past the shrunk list's end). -/
theorem c4_update_repo_filter_raises :
    update_repo { store := some emptyHdb,
                  entries := [⟨"notes.txt", none⟩, ⟨"a.hkg", some "1.0"⟩] } =
      .error .indexError := by
  rfl

/-- First `update_repo` pass on the demo repository: one write. -/
theorem update_repo_demo_first_pass :
    update_repo repoDemo = .ok (true, repoDemo1, 1) := by
  rfl

theorem entGet_eq_some_of_mem {s : Entries} {k : String} (h : k ∈ entKeys s) :
    ∃ v, entGet s k = some v := by
  induction s with
  | nil => simp [entKeys] at h
  | cons kv rest ih =>
    obtain ⟨k0, v0⟩ := kv
    by_cases hk : k0 = k
    · exact ⟨v0, by simp [entGet, hk]⟩
    · simp only [entKeys, List.map_cons, List.mem_cons] at h
      rcases h with rfl | h
      · exact absurd rfl hk
      · rcases ih h with ⟨v, hv⟩
        exact ⟨v, by simp [entGet, hk, hv]⟩

theorem pyListLt_irrefl (l : List Char) : pyListLt l l = false := by
  induction l with
  | nil => rfl
  | cons c rest ih => simp [pyListLt, ih]

theorem pyStrGt_irrefl (a : String) : pyStrGt a a = false :=
  pyListLt_irrefl a.toList

theorem entGet_entSet_self (s : Entries) (k v : String) :
    entGet (entSet s k v) k = some v := by
  induction s with
  | nil => simp [entSet, entGet]
  | cons kv rest ih =>
    obtain ⟨k0, v0⟩ := kv
    by_cases hk : k0 = k
    · simp [entSet, entGet, hk]
    · simp [entSet, entGet, hk, ih]

theorem entGet_entSet_ne {k2 k : String} (s : Entries) (v : String) (h : k2 ≠ k) :
    entGet (entSet s k v) k2 = entGet s k2 := by
  induction s with
  | nil => simp [entSet, entGet, Ne.symm h]
  | cons kv rest ih =>
    obtain ⟨k0, v0⟩ := kv
    by_cases hk : k0 = k
    · subst hk
      simp [entSet, entGet, Ne.symm h]
    · simp [entSet, entGet, hk, ih]

theorem entKeys_entSet (s : Entries) (k v : String) :
    entKeys (entSet s k v) =
      if k ∈ entKeys s then entKeys s else entKeys s ++ [k] := by
  induction s with
  | nil => simp [entSet, entKeys]
  | cons kv rest ih =>
    obtain ⟨k0, v0⟩ := kv
    by_cases hk : k0 = k
    · subst hk
      simp [entSet, entKeys]
    · have hne : ¬ (k = k0) := fun hh => hk hh.symm
      simp only [entSet, if_neg hk, entKeys, List.map_cons]
      simp only [entKeys] at ih
      rw [ih]
      simp only [List.mem_cons, hne, false_or]
      by_cases hm : k ∈ List.map Prod.fst rest <;> simp [hm]

theorem entSet_keys_nodup {s : Entries} {k v : String} (h : (entKeys s).Nodup) :
    (entKeys (entSet s k v)).Nodup := by
  rw [entKeys_entSet]
  by_cases hm : k ∈ entKeys s
  · simp [hm, h]
  · simp only [hm, if_false]
    rw [List.nodup_append]
    exact ⟨h, List.nodup_singleton k, by simpa using hm⟩

theorem entDel_entSet (s : Entries) (k v : String) :
    entDel (entSet s k v) k = entDel s k := by
  induction s with
  | nil => simp [entSet, entDel]
  | cons kv rest ih =>
    obtain ⟨k0, v0⟩ := kv
    by_cases hk : k0 = k
    · simp [entSet, entDel, hk]
    · simp [entSet, entDel, hk, ih]

theorem entGet_entDel_ne {k2 k : String} (s : Entries) (h : k2 ≠ k) :
    entGet (entDel s k) k2 = entGet s k2 := by
  induction s with
  | nil => simp [entDel]
  | cons kv rest ih =>
    obtain ⟨k0, v0⟩ := kv
    by_cases hk : k0 = k
    · subst hk
      simp [entDel, entGet, Ne.symm h]
    · simp [entDel, entGet, hk, ih]

theorem entKeys_entDel (s : Entries) (k : String) :
    entKeys (entDel s k) = (entKeys s).erase k := by
  induction s with
  | nil => simp [entDel, entKeys]
  | cons kv rest ih =>
    obtain ⟨k0, v0⟩ := kv
    by_cases hk : k0 = k
    · subst hk
      simp [entDel, entKeys, List.erase_cons]
    · simp only [entDel, if_neg hk, entKeys, List.map_cons, List.erase_cons]
      simp only [entKeys] at ih
      rw [ih]
      simp [hk]

theorem storeGet_storeSet_self (db : Store) (sect : String) (sec : Entries) :
    storeGet (storeSet db sect sec) sect = some sec := by
  induction db with
  | nil => simp [storeSet, storeGet]
  | cons ns rest ih =>
    obtain ⟨n, s⟩ := ns
    by_cases hn : n = sect
    · simp [storeSet, storeGet, hn]
    · simp [storeSet, storeGet, hn, ih]

theorem buildDict_nodup (entries : List RepoEntry) (names : List String) :
    ∀ (acc d : Entries), (entKeys acc).Nodup →
      buildDict entries names acc = .ok d → (entKeys d).Nodup := by
  induction names with
  | nil =>
    intro acc d hnd h
    simp only [buildDict, Except.ok.injEq] at h
    exact h ▸ hnd
  | cons i rest ih =>
    intro acc d hnd h
    simp only [buildDict] at h
    rcases he : entryVer entries i with _ | mv
    · rw [he] at h
      exact absurd h (by simp)
    · rw [he] at h
      rcases mv with _ | v
      · exact absurd h (by simp)
      · exact ih _ d (entSet_keys_nodup hnd) h

theorem entGet_some_mem {s : Entries} {k u : String} (h : entGet s k = some u) :
    k ∈ entKeys s := by
  by_contra hm
  rw [entGet_eq_none_of_not_mem hm] at h
  cases h

theorem reconcileStep_eq (db : Store) (avail : Entries) (name ver : String)
    (hav : storeGet db "AVAILABLE" = some avail) :
    reconcileStep db name ver =
      match entGet avail name with
      | none => .ok (storeSet db "AVAILABLE" (entSet avail name ver), 1)
      | some v =>
        if pyStrGt ver v then
          .ok (storeSet db "AVAILABLE" (entSet avail name ver), 1)
        else .ok (db, 0) := by
  unfold reconcileStep
  simp only [api_check_eq, hav]
  by_cases hmem : name ∈ entKeys avail
  · obtain ⟨u, hu⟩ := entGet_eq_some_of_mem hmem
    simp only [decide_eq_true hmem, api_version_eq, hav, hu]
    by_cases hgt : pyStrGt ver u = true
    · simp only [if_pos hgt, api_update_eq, hav]
    · simp only [if_neg hgt]
  · have hv : entGet avail name = none := entGet_eq_none_of_not_mem hmem
    simp only [decide_eq_false hmem, api_create_eq, hav, hv]

theorem reconcileStep_ok_avail {db : Store} {name ver : String} {p : Store × Nat}
    (h : reconcileStep db name ver = .ok p) :
    ∃ avail, storeGet db "AVAILABLE" = some avail := by
  rcases hav : storeGet db "AVAILABLE" with _ | avail
  · exfalso
    unfold reconcileStep at h
    simp only [api_check_eq, hav] at h
    exact absurd h (by simp)
  · exact ⟨avail, rfl⟩

theorem reconcile_noop (dict : Entries) (db : Store) (avail : Entries)
    (hav : storeGet db "AVAILABLE" = some avail)
    (hok : ∀ nv ∈ dict, ∃ u, entGet avail nv.1 = some u ∧ pyStrGt nv.2 u = false) :
    reconcile db dict = .ok (db, 0) := by
  induction dict with
  | nil => rfl
  | cons nv rest ih =>
    obtain ⟨n, v⟩ := nv
    obtain ⟨u, hu, hgt⟩ := hok (n, v) (List.mem_cons_self _ _)
    have hstep : reconcileStep db n v = .ok (db, 0) := by
      rw [reconcileStep_eq db avail n v hav]
      simp [hu, hgt]
    simp only [reconcile, hstep]
    rw [ih (fun nv2 h2 => hok nv2 (List.mem_cons_of_mem _ h2))]

theorem deletePass_noop (names : List String) (db : Store) (dk : List String)
    (h : ∀ i ∈ names, i ∈ dk) : deletePass db names dk = .ok (db, 0) := by
  induction names with
  | nil => rfl
  | cons i rest ih =>
    simp only [deletePass, if_pos (h i (List.mem_cons_self _ _))]
    exact ih (fun j hj => h j (List.mem_cons_of_mem _ hj))

theorem reconcile_post (dict : Entries) :
    ∀ (db : Store) (avail : Entries) (db' : Store) (w : Nat),
      storeGet db "AVAILABLE" = some avail →
      (entKeys avail).Nodup → (entKeys dict).Nodup →
      reconcile db dict = .ok (db', w) →
      ∃ avail', storeGet db' "AVAILABLE" = some avail' ∧
        (entKeys avail').Nodup ∧
        (∀ nv ∈ dict, ∃ u, entGet avail' nv.1 = some u ∧ pyStrGt nv.2 u = false) ∧
        (∀ k, k ∉ entKeys dict → entGet avail' k = entGet avail k) ∧
        (∀ k ∈ entKeys avail', k ∈ entKeys avail ∨ k ∈ entKeys dict) := by
  induction dict with
  | nil =>
    intro db avail db' w hav hand _ h
    simp only [reconcile, Except.ok.injEq, Prod.mk.injEq] at h
    obtain ⟨rfl, -⟩ := h
    exact ⟨avail, hav, hand, by simp, fun k _ => rfl, fun k hk => Or.inl hk⟩
  | cons nv drest ih =>
    intro db avail db' w hav hand hdnd h
    obtain ⟨n, v⟩ := nv
    simp only [entKeys, List.map_cons, List.nodup_cons] at hdnd
    simp only [reconcile] at h
    rw [reconcileStep_eq db avail n v hav] at h
    rcases hv : entGet avail n with _ | u
    · -- absent: create
      simp only [hv] at h
      have hnm : n ∉ entKeys avail := fun hm => by
        obtain ⟨u, hu⟩ := entGet_eq_some_of_mem hm
        rw [hu] at hv
        cases hv
      rcases hrec : reconcile (storeSet db "AVAILABLE" (entSet avail n v)) drest
          with e | p <;> simp only [hrec] at h
      · exact absurd h (by simp)
      obtain ⟨db2, w2⟩ := p
      simp only [Except.ok.injEq, Prod.mk.injEq] at h
      obtain ⟨rfl, rfl⟩ := h
      obtain ⟨avail', ha1, ha2, ha3, ha4, ha5⟩ :=
        ih _ (entSet avail n v) db2 w2 (storeGet_storeSet_self _ _ _)
          (entSet_keys_nodup hand) hdnd.2 hrec
      refine ⟨avail', ha1, ha2, ?_, ?_, ?_⟩
      · intro nv2 hnv2
        rcases List.mem_cons.1 hnv2 with rfl | h2
        · refine ⟨v, ?_, pyStrGt_irrefl v⟩
          rw [ha4 n (by simpa [entKeys] using hdnd.1)]
          exact entGet_entSet_self avail n v
        · exact ha3 nv2 h2
      · intro k hk
        simp only [entKeys, List.map_cons, List.mem_cons] at hk
        push_neg at hk
        rw [ha4 k (by simpa [entKeys] using hk.2)]
        exact entGet_entSet_ne avail v hk.1
      · intro k hk
        rcases ha5 k hk with h1 | h1
        · rw [entKeys_entSet, if_neg hnm] at h1
          rcases List.mem_append.1 h1 with h2 | h2
          · exact Or.inl h2
          · simp only [List.mem_singleton] at h2
            subst h2
            exact Or.inr (by simp [entKeys])
        · exact Or.inr (by simp [entKeys]; exact Or.inr (by simpa [entKeys] using h1))
    · -- present
      have hmem : n ∈ entKeys avail := entGet_some_mem hv
      by_cases hgt : pyStrGt v u = true
      · -- newer on disk: update
        simp only [hv, if_pos hgt] at h
        rcases hrec : reconcile (storeSet db "AVAILABLE" (entSet avail n v)) drest
            with e | p <;> simp only [hrec] at h
        · exact absurd h (by simp)
        obtain ⟨db2, w2⟩ := p
        simp only [Except.ok.injEq, Prod.mk.injEq] at h
        obtain ⟨rfl, rfl⟩ := h
        obtain ⟨avail', ha1, ha2, ha3, ha4, ha5⟩ :=
          ih _ (entSet avail n v) db2 w2 (storeGet_storeSet_self _ _ _)
            (entSet_keys_nodup hand) hdnd.2 hrec
        refine ⟨avail', ha1, ha2, ?_, ?_, ?_⟩
        · intro nv2 hnv2
          rcases List.mem_cons.1 hnv2 with rfl | h2
          · refine ⟨v, ?_, pyStrGt_irrefl v⟩
            rw [ha4 n (by simpa [entKeys] using hdnd.1)]
            exact entGet_entSet_self avail n v
          · exact ha3 nv2 h2
        · intro k hk
          simp only [entKeys, List.map_cons, List.mem_cons] at hk
          push_neg at hk
          rw [ha4 k (by simpa [entKeys] using hk.2)]
          exact entGet_entSet_ne avail v hk.1
        · intro k hk
          rcases ha5 k hk with h1 | h1
          · rw [entKeys_entSet, if_pos hmem] at h1
            exact Or.inl h1
          · exact Or.inr (by simp [entKeys]; exact Or.inr (by simpa [entKeys] using h1))
      · -- not newer: untouched
        have hgtf : pyStrGt v u = false := by
          revert hgt
          cases pyStrGt v u <;> simp
        simp only [hv, if_neg hgt] at h
        rcases hrec : reconcile db drest with e | p <;> simp only [hrec] at h
        · exact absurd h (by simp)
        obtain ⟨db2, w2⟩ := p
        simp only [Except.ok.injEq, Prod.mk.injEq] at h
        obtain ⟨rfl, rfl⟩ := h
        obtain ⟨avail', ha1, ha2, ha3, ha4, ha5⟩ :=
          ih db avail db2 w2 hav hand hdnd.2 hrec
        refine ⟨avail', ha1, ha2, ?_, ?_, ?_⟩
        · intro nv2 hnv2
          rcases List.mem_cons.1 hnv2 with rfl | h2
          · refine ⟨u, ?_, hgtf⟩
            rw [ha4 n (by simpa [entKeys] using hdnd.1)]
            exact hv
          · exact ha3 nv2 h2
        · intro k hk
          simp only [entKeys, List.map_cons, List.mem_cons] at hk
          push_neg at hk
          exact ha4 k (by simpa [entKeys] using hk.2)
        · intro k hk
          rcases ha5 k hk with h1 | h1
          · exact Or.inl h1
          · exact Or.inr (by simp [entKeys]; exact Or.inr (by simpa [entKeys] using h1))

theorem deletePass_post (dk : List String) (names : List String) :
    ∀ (db : Store) (avail : Entries) (db' : Store) (w : Nat),
      storeGet db "AVAILABLE" = some avail →
      (entKeys avail).Nodup →
      (∀ k ∈ entKeys avail, k ∈ names ∨ k ∈ dk) →
      deletePass db names dk = .ok (db', w) →
      ∃ avail', storeGet db' "AVAILABLE" = some avail' ∧
        (∀ k ∈ entKeys avail', k ∈ dk) ∧
        (∀ k ∈ dk, entGet avail' k = entGet avail k) := by
  induction names with
  | nil =>
    intro db avail db' w hav _ hsub h
    simp only [deletePass, Except.ok.injEq, Prod.mk.injEq] at h
    obtain ⟨rfl, -⟩ := h
    refine ⟨avail, hav, ?_, fun k _ => rfl⟩
    intro k hk
    rcases hsub k hk with h1 | h1
    · simp at h1
    · exact h1
  | cons i rest ih =>
    intro db avail db' w hav hand hsub h
    by_cases hik : i ∈ dk
    · simp only [deletePass, if_pos hik] at h
      refine ih db avail db' w hav hand ?_ h
      intro k hk
      rcases hsub k hk with h1 | h1
      · rcases List.mem_cons.1 h1 with rfl | h2
        · exact Or.inr hik
        · exact Or.inl h2
      · exact Or.inr h1
    · simp only [deletePass, if_neg hik] at h
      simp only [api_delete_eq, hav] at h
      rw [entDel_entSet] at h
      rcases hrec : deletePass (storeSet db "AVAILABLE" (entDel avail i)) rest dk
          with e | p <;> simp only [hrec] at h
      · exact absurd h (by simp)
      obtain ⟨db2, w2⟩ := p
      simp only [Except.ok.injEq, Prod.mk.injEq] at h
      obtain ⟨rfl, rfl⟩ := h
      have hand1 : (entKeys (entDel avail i)).Nodup := by
        rw [entKeys_entDel]
        exact hand.erase i
      have hsub1 : ∀ k ∈ entKeys (entDel avail i), k ∈ rest ∨ k ∈ dk := by
        intro k hk
        rw [entKeys_entDel] at hk
        have hki := (List.Nodup.mem_erase_iff hand).1 hk
        rcases hsub k hki.2 with h1 | h1
        · rcases List.mem_cons.1 h1 with rfl | h2
          · exact absurd rfl hki.1
          · exact Or.inl h2
        · exact Or.inr h1
      obtain ⟨avail', ha1, ha2, ha3⟩ :=
        ih _ (entDel avail i) db2 w2 (storeGet_storeSet_self _ _ _) hand1 hsub1 hrec
      refine ⟨avail', ha1, ha2, ?_⟩
      intro k hk
      rw [ha3 k hk]
      exact entGet_entDel_ne avail (fun he => hik (he ▸ hk))

theorem reconcile_ok_avail {db db' : Store} {dict : Entries} {w : Nat} {avail' : Entries}
    (h : reconcile db dict = .ok (db', w))
    (hav2 : storeGet db' "AVAILABLE" = some avail') :
    ∃ avail, storeGet db "AVAILABLE" = some avail := by
  cases dict with
  | nil =>
    simp only [reconcile, Except.ok.injEq, Prod.mk.injEq] at h
    obtain ⟨rfl, -⟩ := h
    exact ⟨avail', hav2⟩
  | cons nv rest =>
    obtain ⟨n, v⟩ := nv
    simp only [reconcile] at h
    rcases hstep : reconcileStep db n v with e | p <;> simp only [hstep] at h
    · exact absurd h (by simp)
    · exact reconcileStep_ok_avail hstep

/-- Claim C6: on the repository state a successful `update_repo` run
produced, a second run with no filesystem change succeeds, returns the
very same repository state (identical `AVAILABLE` section), and performs
zero store writes.  (Hypothesis: the starting store's `AVAILABLE`
section has no duplicate keys, as configparser-parsed stores always do.) -/
theorem c6_update_repo_idempotent (repo repo1 : Repo) (w1 : Nat)
    (hnd : ∀ db avail, repo.store = some db →
      storeGet db "AVAILABLE" = some avail → (entKeys avail).Nodup)
    (h1 : update_repo repo = .ok (true, repo1, w1)) :
    update_repo repo1 = .ok (true, repo1, 0) := by
  unfold update_repo at h1
  rcases hst : repo.store with _ | db0 <;> simp only [hst] at h1
  · exact absurd h1 (by simp)
  rcases hfil : filterLoop (repo.entries.map RepoEntry.name).length
      (repo.entries.map RepoEntry.name) 0 with e | filtered <;> simp only [hfil] at h1
  · exact absurd h1 (by simp)
  rcases hdic : buildDict repo.entries filtered [] with e | dict <;> simp only [hdic] at h1
  · exact absurd h1 (by simp)
  rcases hrec : reconcile db0 dict with e | p1 <;> simp only [hrec] at h1
  · exact absurd h1 (by simp)
  obtain ⟨db1, wa⟩ := p1
  rcases hav1 : storeGet db1 "AVAILABLE" with _ | avail1 <;> simp only [hav1] at h1
  · exact absurd h1 (by simp)
  rcases hdel : deletePass db1 (entKeys avail1) (entKeys dict) with e | p2 <;>
    simp only [hdel] at h1
  · exact absurd h1 (by simp)
  obtain ⟨db2, wb⟩ := p2
  simp only [Except.ok.injEq, Prod.mk.injEq] at h1
  obtain ⟨-, hrepo1, -⟩ := h1
  subst hrepo1
  obtain ⟨avail0, hav0⟩ := reconcile_ok_avail hrec hav1
  have hand0 : (entKeys avail0).Nodup := hnd db0 avail0 hst hav0
  have hdictnd : (entKeys dict).Nodup :=
    buildDict_nodup repo.entries filtered [] dict (by simp [entKeys]) hdic
  obtain ⟨avail1', hb1, hb2, hb3, hb4, hb5⟩ :=
    reconcile_post dict db0 avail0 db1 wa hav0 hand0 hdictnd hrec
  rw [hav1] at hb1
  injection hb1 with hb1
  subst hb1
  obtain ⟨avail2, hc1, hc2, hc3⟩ :=
    deletePass_post (entKeys dict) (entKeys avail1) db1 avail1 db2 wb hav1 hb2
      (fun k hk => Or.inl hk) hdel
  have hrec2 : reconcile db2 dict = .ok (db2, 0) := by
    refine reconcile_noop dict db2 avail2 hc1 ?_
    intro nv hnv
    obtain ⟨u, hu, hgt⟩ := hb3 nv hnv
    refine ⟨u, ?_, hgt⟩
    rw [hc3 nv.1 (List.mem_map_of_mem Prod.fst hnv)]
    exact hu
  have hdel2 : deletePass db2 (entKeys avail2) (entKeys dict) = .ok (db2, 0) :=
    deletePass_noop _ _ _ hc2
  unfold update_repo
  simp only [hfil, hdic, hrec2, hc1, hdel2]

theorem c6_update_repo_idempotent_witness :
    update_repo repoDemo = .ok (true, repoDemo1, 1) ∧
      update_repo repoDemo1 = .ok (true, repoDemo1, 0) :=
  ⟨update_repo_demo_first_pass,
   c6_update_repo_idempotent repoDemo repoDemo1 1
     (by
       intro db avail h1 h2
       rw [show repoDemo.store = some emptyHdb from rfl] at h1
       cases h1
       rw [show storeGet emptyHdb "AVAILABLE" = some ([] : Entries) from rfl] at h2
       cases h2
       simp [entKeys])
     update_repo_demo_first_pass⟩

end Hkg
